import Mathlib

/-!
Formal model of the news curation and discovery pipeline
(`scripts/core/models.py`, `scripts/core/processor.py`,
`scripts/core/category_discovery.py`).

Python machine arithmetic on scores and confidences is modelled over `ℚ`;
wall-clock timestamps are modelled as rational numbers of seconds, with the
current time passed explicitly (`now`).  Each definition mirrors one function
of the source, keeping its name where Lean allows it.
-/

/-- Python's substring test `pat in s`. -/
def strContains (s pat : String) : Bool :=
  s.toList.tails.any (fun t => pat.toList.isPrefixOf t)

/-- Python's `str.lower()` (ASCII case folding, which covers the
configuration strings of this program). -/
def pyLower (s : String) : String :=
  String.mk (s.toList.map Char.toLower)

/-- Splits a character list at the characters satisfying `p`, keeping only
the non-empty pieces; `acc` is the current piece, reversed. -/
def splitDropAux (p : Char → Bool) : List Char → List Char → List String
  | acc, [] => if acc.isEmpty then [] else [String.mk acc.reverse]
  | acc, c :: cs =>
    if p c then
      if acc.isEmpty then splitDropAux p [] cs
      else String.mk acc.reverse :: splitDropAux p [] cs
    else splitDropAux p (c :: acc) cs

/-- Splits a string at the characters satisfying `p`, dropping empty
pieces. -/
def splitDrop (p : Char → Bool) (s : String) : List String :=
  splitDropAux p [] s.toList

/-- Python's `str.split()` with no argument: split on whitespace runs and
drop empty pieces. -/
def pySplit (s : String) : List String :=
  splitDrop (fun c => c.isWhitespace) s

/-- One entry of the configured category catalog
(`TARGET_CATEGORIES[name]`): the keyword list is always present, while
`max_articles` and `score_multiplier` are read with `.get` defaults. -/
structure CategoryInfo where
  keywords : List String
  max_articles : Option Nat := none
  score_multiplier : Option ℚ := none
deriving DecidableEq

/-- The category catalog `TARGET_CATEGORIES`, a Python dict modelled as an
insertion-ordered association list. -/
abbrev Catalog := List (String × CategoryInfo)

/-- First-match lookup in the catalog (Python dict access). -/
def lookupCat (cat : String) : Catalog → Option CategoryInfo
  | [] => none
  | (k, v) :: rest => if k = cat then some v else lookupCat cat rest

/-- The `config_settings` dict; every field is read with a `.get` default
in the source, so all fields are optional. -/
structure ConfigSettings where
  default_max_articles : Option Nat := none
  default_category : Option String := none
  recent_article_boost : Option ℚ := none
  old_article_penalty : Option ℚ := none
deriving DecidableEq

/-- `NewsArticle` (`models.py`).  `published` is a timestamp in seconds;
`score` is the mutable score field, threaded as a value. -/
structure NewsArticle where
  title : String
  url : String
  source : String
  category : String
  published : ℚ
  description : String := ""
  tags : List String := []
  score : ℚ := 0
deriving DecidableEq

/-- The lower-cased `title description` concatenation used by
`calculate_score` and `_fallback_single_categorization`. -/
def combinedText (a : NewsArticle) : String :=
  pyLower a.title ++ " " ++ pyLower a.description

/-- The freshness component of `calculate_score`:
`max(0, 1 - age_hours / 48)`. -/
def freshnessScore (age_hours : ℚ) : ℚ :=
  max 0 (1 - age_hours / 48)

/-- `NewsArticle.calculate_score` (`models.py` lines 86-124).
`age_hours = (now - published) / 3600`; relevance starts at `0.5` and gains
`0.1` per category keyword found in the combined text, capped at `1.0`;
the composite is weighted `0.3/0.3/0.4`, multiplied by the category's
`score_multiplier` (default `1.0`), adjusted by the recency bonus
(`age_hours < 6`) or the old-article penalty (`age_hours > 24`), and
clamped below at `0`. -/
def calculate_score (a : NewsArticle) (now source_weight : ℚ)
    (target_categories : Catalog) (config_settings : ConfigSettings) : ℚ :=
  let age_hours : ℚ := (now - a.published) / 3600
  let freshness_score := freshnessScore age_hours
  let relevance_score : ℚ :=
    match lookupCat a.category target_categories with
    | some info =>
        info.keywords.foldl
          (fun r kw => if strContains (combinedText a) kw then r + 0.1 else r) 0.5
    | none => 0.5
  let relevance_score := min 1 relevance_score
  let base_score :=
    freshness_score * 0.3 + source_weight * 0.3 + relevance_score * 0.4
  let base_score :=
    match lookupCat a.category target_categories with
    | some info => base_score * info.score_multiplier.getD 1
    | none => base_score
  let base_score :=
    if age_hours < 6 then base_score + config_settings.recent_article_boost.getD 0
    else if age_hours > 24 then base_score + config_settings.old_article_penalty.getD 0
    else base_score
  max 0 base_score

/-- The closed-form score stated by the specification: relevance
`min(1, 0.5 + 0.1·matched_keywords)`, composite
`0.3·freshness + 0.3·source_weight + 0.4·relevance` times the category
multiplier, plus the recency bonus (`age_hours < 6`) or penalty
(`age_hours > 24`), clamped below at `0`. -/
def specScore (a : NewsArticle) (now source_weight : ℚ) (info : CategoryInfo)
    (config_settings : ConfigSettings) : ℚ :=
  let age_hours : ℚ := (now - a.published) / 3600
  let freshness := max 0 (1 - age_hours / 48)
  let matched : ℕ := info.keywords.countP (fun kw => strContains (combinedText a) kw)
  let relevance := min 1 (0.5 + 0.1 * (matched : ℚ))
  let base := (0.3 * freshness + 0.3 * source_weight + 0.4 * relevance) *
      info.score_multiplier.getD 1
  let adjusted :=
    if age_hours < 6 then base + config_settings.recent_article_boost.getD 0
    else if age_hours > 24 then base + config_settings.old_article_penalty.getD 0
    else base
  max 0 adjusted

/-- Concrete inputs exercising `calculate_score_eq_specScore`. -/
def wInfo : CategoryInfo := { keywords := ["cloud", "llm"], score_multiplier := some 1.2 }

def wCatalog : Catalog := [("ai", wInfo)]

def wArt : NewsArticle :=
  { title := "Cloud LLM news", url := "u", source := "s", category := "ai",
    published := 0, description := "about llm" }

def wCfg : ConfigSettings :=
  { recent_article_boost := some 0.1, old_article_penalty := some (-0.2) }

/-- The per-category keyword scores computed by
`_fallback_single_categorization`: one point per keyword of the category
found in the lower-cased `title description` text. -/
def fallback_category_scores (a : NewsArticle) (target_categories : Catalog) :
    List (String × Nat) :=
  target_categories.map
    (fun p => (p.1, p.2.keywords.countP (fun kw => strContains (combinedText a) kw)))

/-- `ArticleProcessor._fallback_single_categorization` (`processor.py`
lines 103-123): score every category, return the configured default when the
maximal score is zero, otherwise the first category attaining the maximal
score (Python's `max(dict, key=...)` keeps the earliest maximum).  Returns
`none` exactly when the catalog is empty, where the Python code would raise
on `max` of an empty sequence. -/
def _fallback_single_categorization (a : NewsArticle)
    (target_categories : Catalog) (config_settings : ConfigSettings) :
    Option String :=
  match fallback_category_scores a target_categories with
  | [] => none
  | first :: rest =>
    if rest.foldl (fun m p => max m p.2) first.2 = 0 then
      some (config_settings.default_category.getD "webdev")
    else
      some ((rest.foldl (fun best p => if best.2 < p.2 then p else best) first).1)

/-- Inputs on which the fallback categorizer returns the configured default
even though a category score is non-zero. -/
def c3Art : NewsArticle :=
  { title := "Cloud computing news", url := "u", source := "s",
    category := "uncategorized", published := 0 }

def c3Catalog : Catalog := [("webdev", { keywords := ["cloud"] })]

def c3Cfg : ConfigSettings := { default_category := some "webdev" }

/-- The patch-cycle phrases of `_is_similar_keyword_based`. -/
def patchPhrases : List String := ["patch tuesday", "patch", "vulnerability", "flaw"]

/-- The security-action vocabulary of `_is_similar_keyword_based`. -/
def securityWords : List String := ["vulnerability", "patch", "update", "fix"]

/-- The known company list of `_is_similar_keyword_based`. -/
def companies : List String := ["microsoft", "google", "apple", "adobe", "cisco", "vmware"]

/-- `NewsArticle._is_similar_keyword_based` (`models.py` lines 64-84):
Microsoft patch-cycle detection, or any known company mentioned in both
lower-cased titles together with a security-action word in each. -/
def _is_similar_keyword_based (a other : NewsArticle) : Bool :=
  (strContains (pyLower a.title) "microsoft" &&
     strContains (pyLower other.title) "microsoft" &&
     (patchPhrases.any (fun p => strContains (pyLower a.title) p) &&
      patchPhrases.any (fun p => strContains (pyLower other.title) p)))
  ||
  companies.any (fun company =>
    strContains (pyLower a.title) company &&
    strContains (pyLower other.title) company &&
    securityWords.any (fun w => strContains (pyLower a.title) w) &&
    securityWords.any (fun w => strContains (pyLower other.title) w))

/-- `ArticleProcessor._similarity` (`processor.py` lines 212-230): equal
lower-cased strings give `1.0`; otherwise token-set Jaccard similarity of
the whitespace-split lower-cased titles, `0.0` when either token set is
empty. -/
def _similarity (s1 s2 : String) : ℚ :=
  if pyLower s1 = pyLower s2 then 1
  else
    let words1 := (pySplit (pyLower s1)).toFinset
    let words2 := (pySplit (pyLower s2)).toFinset
    if words1 = ∅ ∨ words2 = ∅ then 0
    else ((words1 ∩ words2).card : ℚ) / ((words1 ∪ words2).card : ℚ)

/-- The accumulating loop of `_remove_similar_articles`: `seen` holds the
titles of the articles kept so far. -/
def removeSimilarAux : List String → List NewsArticle → List NewsArticle
  | _, [] => []
  | seen, a :: rest =>
    if seen.any (fun t => decide (_similarity a.title t > 0.8)) then
      removeSimilarAux seen rest
    else
      a :: removeSimilarAux (seen ++ [a.title]) rest

/-- `ArticleProcessor._remove_similar_articles` (`processor.py` lines
194-210): drop every article whose title is more than `0.8`-similar to a
previously kept title. -/
def _remove_similar_articles (articles : List NewsArticle) : List NewsArticle :=
  removeSimilarAux [] articles

/-- The per-category cap used by `_filter_and_rank`:
`target_categories.get(category, {}).get('max_articles', default)` with the
global default `config_settings.get('default_max_articles', 5)`. -/
def capOf (target_categories : Catalog) (config_settings : ConfigSettings)
    (cat : String) : Nat :=
  match lookupCat cat target_categories with
  | some info => info.max_articles.getD (config_settings.default_max_articles.getD 5)
  | none => config_settings.default_max_articles.getD 5

/-- The selection walk of `_filter_and_rank` (`processor.py` lines
182-188): keep an article only when its category is a key of the
catalog-initialised counter dict and that category's running count is
still below its cap; increment on keep. -/
def keepTopPerCategory (tc : Catalog) (cs : ConfigSettings) :
    (String → Nat) → List NewsArticle → List NewsArticle
  | _, [] => []
  | counts, a :: rest =>
    if (lookupCat a.category tc).isSome then
      if counts a.category < capOf tc cs a.category then
        a :: keepTopPerCategory tc cs
          (fun c => if c = a.category then counts c + 1 else counts c) rest
      else keepTopPerCategory tc cs counts rest
    else keepTopPerCategory tc cs counts rest

/-- `articles.sort(key=lambda x: x.score, reverse=True)`: a stable
descending sort by score. -/
def sortByScoreDesc (articles : List NewsArticle) : List NewsArticle :=
  articles.insertionSort (fun x y => y.score ≤ x.score)

/-- The selection stage of `ArticleProcessor._filter_and_rank`
(`processor.py` lines 170-190): sort by score descending (stable), then
keep at most `max_articles` articles per configured category. -/
def select_top_articles (tc : Catalog) (cs : ConfigSettings)
    (articles : List NewsArticle) : List NewsArticle :=
  keepTopPerCategory tc cs (fun _ => 0) (sortByScoreDesc articles)

/-- `ArticleProcessor._filter_and_rank` (`processor.py` lines 154-192):
fuzzy-title deduplication followed by the sorted per-category selection
(the AI-curation branch is guarded by a permanently false condition in the
source and never runs). -/
def _filter_and_rank (tc : Catalog) (cs : ConfigSettings)
    (articles : List NewsArticle) : List NewsArticle :=
  select_top_articles tc cs (_remove_similar_articles articles)

instance : IsTotal NewsArticle (fun x y => y.score ≤ x.score) :=
  ⟨fun a b => le_total b.score a.score⟩

instance : IsTrans NewsArticle (fun x y => y.score ≤ x.score) :=
  ⟨fun _ _ _ hab hbc => le_trans hbc hab⟩

/-- Concrete inputs exercising the Selector theorems: one category capped
at one article, two distinct same-category articles with scores 2 and 1. -/
def selInfo : CategoryInfo := { keywords := [], max_articles := some 1 }

def selCatalog : Catalog := [("ai", selInfo)]

def selCfg : ConfigSettings := {}

def selA1 : NewsArticle :=
  { title := "first ai story", url := "u1", source := "s", category := "ai",
    published := 0, score := 2 }

def selA2 : NewsArticle :=
  { title := "second ai story", url := "u2", source := "s", category := "ai",
    published := 0, score := 1 }

def c8Art : NewsArticle :=
  { title := "offtopic story", url := "u9", source := "s", category := "misc",
    published := 0, score := 3 }

/-- Characters of the regex word class `[A-Za-z0-9_]`. -/
def isWordChar (c : Char) : Bool :=
  c.isAlpha || c.isDigit || c == '_'

/-- The matches of `re.findall(r'\b[a-z]{4,}\b', text)`: maximal
word-character runs consisting solely of lower-case ASCII letters, of
length at least 4. -/
def wordTokens (text : String) : List String :=
  (splitDrop (fun c => !isWordChar c) text).filter
    (fun w => 4 ≤ w.length && w.toList.all (fun c => 'a' ≤ c && c ≤ 'z'))

/-- `CategoryDiscovery._get_stop_words` (`category_discovery.py` lines
286-294). -/
def _get_stop_words : List String :=
  ["the", "and", "for", "with", "this", "that", "from", "will",
   "have", "been", "more", "about", "after", "also", "than",
   "their", "which", "these", "could", "would", "should", "there",
   "where", "when", "what", "into", "through", "under", "over",
   "article", "news", "report", "says", "according", "new", "data"]

/-- `CategoryDiscovery._articles_share_topic` (lines 144-161): significant
term sets of both articles must overlap by more than 20% of the smaller
set. -/
def _articles_share_topic (article1 article2 : NewsArticle) : Bool :=
  let terms1 := (wordTokens (pyLower (article1.title ++ " " ++ article1.description))).toFinset \
    _get_stop_words.toFinset
  let terms2 := (wordTokens (pyLower (article2.title ++ " " ++ article2.description))).toFinset \
    _get_stop_words.toFinset
  if terms1 = ∅ ∨ terms2 = ∅ then false
  else decide ((((terms1 ∩ terms2).card : ℚ) / ((min terms1.card terms2.card : ℕ) : ℚ)) > 0.2)

/-- `CategoryDiscovery._cluster_similar_articles` (lines 117-142),
parameterised by the topic-sharing predicate (the source calls
`self._articles_share_topic`): single-pass greedy clustering — the first
unclustered article seeds a cluster absorbing every later unclustered
article sharing the seed's topic; only clusters reaching
`min_cluster_size` are kept. -/
def _cluster_similar_articles (share : NewsArticle → NewsArticle → Bool)
    (min_cluster_size : Nat) : List NewsArticle → List (List NewsArticle)
  | [] => []
  | a :: rest =>
    let cluster := a :: rest.filter (fun b => share a b)
    let remaining := rest.filter (fun b => !share a b)
    (if min_cluster_size ≤ cluster.length then [cluster] else []) ++
      _cluster_similar_articles share min_cluster_size remaining
termination_by l => l.length
decreasing_by
  simp only [List.length_cons]
  exact Nat.lt_succ_of_le (List.length_filter_le _ _)

/-- Python's `round(x, 2)`: round to the nearest multiple of `1/100`
(the tie-break rule is immaterial to the properties proved here, and both
sides of the refinement use this same rounding). -/
def round2 (q : ℚ) : ℚ := (round (q * 100) : ℤ) / 100

/-- `CategoryDiscovery._calculate_confidence` (lines 222-236): the mean of
a size score `min(1, cluster_size/10)` and a frequency score
`min(1, avg_top_term_frequency/10)` (zero when there are no top terms),
rounded to two decimals. -/
def _calculate_confidence (cluster : List NewsArticle)
    (top_terms : List (String × Nat)) : ℚ :=
  let size_score := min 1 ((cluster.length : ℚ) / 10)
  let freq_score : ℚ :=
    if top_terms.isEmpty then 0
    else min 1 (((top_terms.map (fun p => (p.2 : ℚ))).sum / (top_terms.length : ℚ)) / 10)
  round2 (size_score * 0.5 + freq_score * 0.5)

/-- The specification's confidence formula, written from its wording:
`0.5·min(1, cluster_size/10) + 0.5·min(1, avg_top_term_frequency/10)`,
rounded to 2 decimals. -/
def specConfidence (cluster_size : Nat) (top_terms : List (String × Nat)) : ℚ :=
  round2 (0.5 * min 1 ((cluster_size : ℚ) / 10) +
    0.5 * min 1 (((top_terms.map (fun p => (p.2 : ℚ))).sum / (top_terms.length : ℚ)) / 10))

/-- A `DiscoverySuggestion` record as built by
`_generate_category_suggestions` (the wall-clock `discovered_at` field is
outside the model). -/
structure Suggestion where
  name : String
  article_count : Nat
  key_terms : List String
  sample_titles : List String
  confidence : ℚ
deriving DecidableEq

/-- `Counter[word] += 1`: Python dicts keep first-insertion order; an
existing key is bumped in place, a new key is appended. -/
def bumpCounter : List (String × Nat) → String → List (String × Nat)
  | [], w => [(w, 1)]
  | (x, n) :: rest, w =>
    if x = w then (x, n + 1) :: rest else (x, n) :: bumpCounter rest w

/-- The cluster term counter of `_generate_category_suggestions` (lines
168-175): per article of the cluster, count every non-stop-word token of
the lower-cased `title description` text. -/
def clusterTermCounts (cluster : List NewsArticle) : List (String × Nat) :=
  cluster.foldl (fun counts article =>
    ((wordTokens (pyLower (article.title ++ " " ++ article.description))).filter
        (fun w => !(_get_stop_words.contains w))).foldl bumpCounter counts) []

/-- `Counter.most_common(n)`: entries sorted by count descending (stable on
insertion order for ties), first `n` kept. -/
def most_common (counts : List (String × Nat)) (n : Nat) : List (String × Nat) :=
  (counts.insertionSort (fun p q => q.2 ≤ p.2)).take n

/-- `CategoryDiscovery._generate_category_name` (lines 195-220): fixed
domain term-set matches in order, else `{top_term}_tech`, and
`emerging_tech` when there are no top terms. -/
def _generate_category_name (top_terms : List (String × Nat)) : String :=
  match top_terms with
  | [] => "emerging_tech"
  | (t0, _) :: _ =>
    let term_set := top_terms.map (fun p => pyLower p.1)
    if ["quantum", "computing"].any (fun x => term_set.contains x) then
      "quantum_computing"
    else if ["blockchain", "crypto", "defi", "nft"].any (fun x => term_set.contains x) then
      "blockchain_crypto"
    else if ["climate", "sustainability", "green", "carbon"].any (fun x => term_set.contains x) then
      "climate_tech"
    else if ["space", "satellite", "rocket", "aerospace"].any (fun x => term_set.contains x) then
      "space_tech"
    else if ["robot", "robotics", "automation", "autonomous"].any (fun x => term_set.contains x) then
      "robotics_automation"
    else if ["health", "medical", "biotech", "pharma"].any (fun x => term_set.contains x) then
      "health_tech"
    else if ["fintech", "payment", "banking", "finance"].any (fun x => term_set.contains x) then
      "fintech"
    else t0 ++ "_tech"

/-- One iteration of the loop of `_generate_category_suggestions` (lines
167-191): the generated category name with its suggestion record. -/
def clusterSuggestion (cluster : List NewsArticle) : String × Suggestion :=
  let top_terms := most_common (clusterTermCounts cluster) 5
  let category_name := _generate_category_name top_terms
  (category_name,
    { name := category_name
      article_count := cluster.length
      key_terms := top_terms.map Prod.fst
      sample_titles := (cluster.take 3).map (fun a => a.title)
      confidence := _calculate_confidence cluster top_terms })

/-- First-match lookup in an insertion-ordered dict. -/
def dictLookup {α : Type} (k : String) : List (String × α) → Option α
  | [] => none
  | (x, v) :: rest => if x = k then some v else dictLookup k rest

/-- Python dict assignment `d[k] = v`: replace in place when the key
exists, append otherwise. -/
def dictInsert {α : Type} (k : String) (v : α) : List (String × α) → List (String × α)
  | [] => [(k, v)]
  | (x, w) :: rest =>
    if x = k then (k, v) :: rest else (x, w) :: dictInsert k v rest

/-- `CategoryDiscovery._generate_category_suggestions` (lines 163-193):
build the suggestion dict cluster by cluster; `suggestions[name] = record`
is a plain dict assignment. -/
def _generate_category_suggestions (clusters : List (List NewsArticle)) :
    List (String × Suggestion) :=
  clusters.foldl (fun suggestions cluster =>
    dictInsert (clusterSuggestion cluster).1 (clusterSuggestion cluster).2 suggestions) []

/-- The patterns-merge step of `CategoryDiscovery.save_history` (lines
308-335): a newly suggested name is added only when not already present;
existing entries are never replaced (the trend list and file I/O are
outside this model). -/
def save_history_patterns (discovered_patterns : List (String × Suggestion))
    (new_suggestions : List (String × Suggestion)) : List (String × Suggestion) :=
  new_suggestions.foldl (fun pats kv =>
    if (dictLookup kv.1 pats).isSome then pats else pats ++ [kv]) discovered_patterns

/-- A persisted record and a later lower-confidence duplicate for the same
name, used to exercise the history-persistence half of the theorem. -/
def sugOld : Suggestion :=
  { name := "quantum_computing", article_count := 5, key_terms := ["quantum"],
    sample_titles := ["q1"], confidence := 1 }

def sugNew : Suggestion :=
  { name := "quantum_computing", article_count := 2, key_terms := ["quantum"],
    sample_titles := ["q2"], confidence := 0 }

/-- An article whose text yields no qualifying terms (every token is
shorter than 4 characters). -/
def emptyTermArt : NewsArticle :=
  { title := "a b", url := "u", source := "s", category := "webdev",
    published := 0 }

/-- A retained cluster of four term-free articles. -/
def clA : List NewsArticle := [emptyTermArt, emptyTermArt, emptyTermArt, emptyTermArt]

/-- A retained cluster of three term-free articles, processed second. -/
def clB : List NewsArticle := [emptyTermArt, emptyTermArt, emptyTermArt]

example : freshnessScore 48 = 0 := by norm_num [freshnessScore]

example : freshnessScore 0 = 1 := by norm_num [freshnessScore]

example : freshnessScore (-48) = 2 := by norm_num [freshnessScore]

example : strContains "hello cloud world" "cloud" = true := by decide

example : strContains "hello" "cloud" = false := by decide

example : pySplit "a  b " = ["a", "b"] := by decide

example : pyLower "Cloud X" = "cloud x" := by decide

example : calculate_score
    { title := "x", url := "u", source := "s", category := "ai", published := 0 }
    0 1 [] {} = max 0 (1 * 0.3 + 1 * 0.3 + (0.5 : ℚ) * 0.4) := by
  norm_num [calculate_score, freshnessScore, lookupCat]

/-- C5: for an article whose category is in the catalog, `calculate_score`
computes exactly the specification's closed-form composite score. -/
theorem calculate_score_eq_specScore (a : NewsArticle) (now w : ℚ)
    (cat : Catalog) (cfg : ConfigSettings) (info : CategoryInfo)
    (h : lookupCat a.category cat = some info) :
    calculate_score a now w cat cfg = specScore a now w info cfg := by
  have hfold : ∀ (kws : List String) (r : ℚ),
      kws.foldl (fun r kw => if strContains (combinedText a) kw then r + 0.1 else r) r
        = r + 0.1 * (kws.countP (fun kw => strContains (combinedText a) kw) : ℚ) := by
    intro kws
    induction kws with
    | nil => intro r; simp
    | cons k ks ih =>
      intro r
      cases hk : strContains (combinedText a) k with
      | false => simp [List.foldl_cons, hk, ih, List.countP_cons]
      | true =>
        simp only [List.foldl_cons, hk, if_true, ih, List.countP_cons]
        push_cast
        ring
  simp only [calculate_score, specScore, freshnessScore, h]
  rw [hfold]
  have hbase : ∀ f rel : ℚ,
      f * 0.3 + w * 0.3 + rel * 0.4 = 0.3 * f + 0.3 * w + 0.4 * rel := by
    intro f rel; ring
  rw [hbase]

theorem calculate_score_eq_specScore_witness :
    calculate_score wArt 3600 1 wCatalog wCfg = specScore wArt 3600 1 wInfo wCfg :=
  calculate_score_eq_specScore wArt 3600 1 wCatalog wCfg wInfo rfl

/-- C4: the clamped score is never negative and the freshness component is
never negative; for non-future publish times the freshness component stays
within `[0, 1]`, but for an article published 48 hours in the future
(`age_hours = -48`) the code computes freshness `2`, escaping the `[0, 1]`
range that both the specification and the code's own comment
(`Freshness score (0-1, newer is better)`) promise. -/
theorem calculate_score_nonneg_and_future_freshness :
    (∀ (a : NewsArticle) (now w : ℚ) (cat : Catalog) (cfg : ConfigSettings),
        0 ≤ calculate_score a now w cat cfg) ∧
    (∀ age_hours : ℚ, 0 ≤ freshnessScore age_hours) ∧
    (∀ age_hours : ℚ, 0 ≤ age_hours → freshnessScore age_hours ≤ 1) ∧
    freshnessScore (-48) = 2 := by
  refine ⟨fun a now w cat cfg => ?_, fun age => le_max_left _ _,
    fun age hage => ?_, by norm_num [freshnessScore]⟩
  · simp only [calculate_score]
    exact le_max_left _ _
  · unfold freshnessScore
    have h48 : (0 : ℚ) ≤ age / 48 := by positivity
    exact max_le (by norm_num) (by linarith)

theorem calculate_score_nonneg_and_future_freshness_witness :
    freshnessScore 10 ≤ 1 ∧ 0 ≤ freshnessScore (-48) :=
  ⟨calculate_score_nonneg_and_future_freshness.2.2.1 10 (by norm_num),
   calculate_score_nonneg_and_future_freshness.2.1 (-48)⟩

theorem le_foldl_max (l : List (String × Nat)) :
    ∀ acc : Nat, acc ≤ l.foldl (fun m p => max m p.2) acc ∧
      ∀ p ∈ l, p.2 ≤ l.foldl (fun m p => max m p.2) acc := by
  induction l with
  | nil => intro acc; exact ⟨le_refl _, by simp⟩
  | cons q rest ih =>
    intro acc
    obtain ⟨h1, h2⟩ := ih (max acc q.2)
    refine ⟨le_trans (le_max_left _ _) h1, ?_⟩
    intro p hp
    rcases List.mem_cons.mp hp with rfl | hp
    · exact le_trans (le_max_right acc p.2) h1
    · exact h2 p hp

theorem foldl_max_of_all_zero (l : List (String × Nat)) :
    ∀ acc : Nat, (∀ p ∈ l, p.2 = 0) → l.foldl (fun m p => max m p.2) acc = acc := by
  induction l with
  | nil => intro acc _; rfl
  | cons q rest ih =>
    intro acc h
    have hq : q.2 = 0 := h q (List.mem_cons_self q rest)
    have : max acc q.2 = acc := by simp [hq]
    simp only [List.foldl_cons, this]
    exact ih acc (fun p hp => h p (List.mem_cons_of_mem q hp))

theorem argmax_foldl_spec (rest : List (String × Nat)) :
    ∀ first : String × Nat,
      rest.foldl (fun best p => if best.2 < p.2 then p else best) first ∈ first :: rest ∧
      ∀ p ∈ first :: rest,
        p.2 ≤ (rest.foldl (fun best p => if best.2 < p.2 then p else best) first).2 := by
  induction rest with
  | nil =>
    intro first
    exact ⟨List.mem_cons_self _ _, by intro p hp; simp at hp; simp [hp]⟩
  | cons q rest ih =>
    intro first
    obtain ⟨h1, h2⟩ := ih (if first.2 < q.2 then q else first)
    constructor
    · simp only [List.foldl_cons]
      rcases List.mem_cons.mp h1 with he | hm
      · rw [he]
        split
        · exact List.mem_cons_of_mem _ (List.mem_cons_self _ _)
        · exact List.mem_cons_self _ _
      · exact List.mem_cons_of_mem _ (List.mem_cons_of_mem _ hm)
    · intro p hp
      simp only [List.foldl_cons]
      rcases List.mem_cons.mp hp with rfl | hp2
      · refine le_trans ?_ (h2 _ (List.mem_cons_self _ _))
        split
        · next hlt => exact le_of_lt hlt
        · exact le_refl _
      rcases List.mem_cons.mp hp2 with rfl | hp3
      · refine le_trans ?_ (h2 _ (List.mem_cons_self _ _))
        split
        · exact le_refl _
        · next hlt => exact le_of_not_lt hlt
      · exact h2 p (List.mem_cons_of_mem _ hp3)

/-- C3 (amended): on a non-empty catalog the fallback categorizer always
returns a category (never raises); it returns the configured default
whenever every category's keyword count is zero, and otherwise returns a
catalog category achieving the maximal keyword count (which may coincide
with the default name). -/
theorem fallback_categorization_spec (a : NewsArticle) (cat : Catalog)
    (cfg : ConfigSettings) (hne : cat ≠ []) :
    ∃ r, _fallback_single_categorization a cat cfg = some r ∧
      ((∀ p ∈ fallback_category_scores a cat, p.2 = 0) →
        r = cfg.default_category.getD "webdev") ∧
      ((∃ p ∈ fallback_category_scores a cat, p.2 ≠ 0) →
        ∃ v, (r, v) ∈ fallback_category_scores a cat ∧
          ∀ p ∈ fallback_category_scores a cat, p.2 ≤ v) := by
  rcases hcat : cat with _ | ⟨⟨c0, i0⟩, ct⟩
  · exact absurd hcat hne
  subst hcat
  have hscores : fallback_category_scores a ((c0, i0) :: ct) =
      (c0, i0.keywords.countP (fun kw => strContains (combinedText a) kw)) ::
        fallback_category_scores a ct := rfl
  set s0 := i0.keywords.countP (fun kw => strContains (combinedText a) kw) with hs0
  set rest := fallback_category_scores a ct with hrest
  by_cases hzero : rest.foldl (fun m p => max m p.2) s0 = 0
  · refine ⟨cfg.default_category.getD "webdev", ?_, fun _ => rfl, ?_⟩
    · simp only [_fallback_single_categorization, hscores, hzero, if_true]
    · rintro ⟨p, hp, hpne⟩
      rw [hscores] at hp
      rcases List.mem_cons.mp hp with rfl | hp2
      · exact absurd (Nat.le_zero.mp (le_trans (le_foldl_max rest s0).1 (le_of_eq hzero)))
          (by simpa using hpne)
      · exact absurd (Nat.le_zero.mp (le_trans ((le_foldl_max rest s0).2 p hp2)
          (le_of_eq hzero))) hpne
  · obtain ⟨hmem, hub⟩ := argmax_foldl_spec rest (c0, s0)
    refine ⟨(rest.foldl (fun best p => if best.2 < p.2 then p else best) (c0, s0)).1,
      ?_, ?_, ?_⟩
    · simp only [_fallback_single_categorization, hscores, hzero, if_false]
    · intro hall
      exfalso
      apply hzero
      have h0 : s0 = 0 := hall _ (by rw [hscores]; exact List.mem_cons_self _ _)
      refine Eq.trans (foldl_max_of_all_zero rest s0 ?_) h0
      intro p hp
      exact hall p (by rw [hscores]; exact List.mem_cons_of_mem _ hp)
    · intro _
      refine ⟨(rest.foldl (fun best p => if best.2 < p.2 then p else best) (c0, s0)).2,
        ?_, ?_⟩
      · rw [hscores]
        simpa using hmem
      · intro p hp
        rw [hscores] at hp
        exact hub p hp

/-- C3 counterexample: with catalog `[webdev {keywords: [cloud]}]`, default
category `webdev`, and an article titled `Cloud computing news`, the
categorizer assigns the configured default category `webdev` although the
`webdev` keyword count is `1`, not zero — so `default` is not assigned
*exactly* when every count is zero. -/
theorem fallback_default_despite_nonzero_scores :
    _fallback_single_categorization c3Art c3Catalog c3Cfg =
      some (c3Cfg.default_category.getD "webdev") ∧
    ∃ p ∈ fallback_category_scores c3Art c3Catalog, p.2 ≠ 0 := by
  constructor
  · decide
  · decide

theorem fallback_categorization_spec_witness :
    ∃ r, _fallback_single_categorization c3Art c3Catalog c3Cfg = some r ∧
      ((∀ p ∈ fallback_category_scores c3Art c3Catalog, p.2 = 0) →
        r = c3Cfg.default_category.getD "webdev") ∧
      ((∃ p ∈ fallback_category_scores c3Art c3Catalog, p.2 ≠ 0) →
        ∃ v, (r, v) ∈ fallback_category_scores c3Art c3Catalog ∧
          ∀ p ∈ fallback_category_scores c3Art c3Catalog, p.2 ≤ v) :=
  fallback_categorization_spec c3Art c3Catalog c3Cfg (by decide)

theorem bool_rearrange1 (w x y z : Bool) :
    (w && x && (y && z)) = (x && w && (z && y)) := by
  revert w x y z; decide

theorem bool_rearrange2 (w x y z : Bool) :
    (w && x && y && z) = (x && w && z && y) := by
  revert w x y z; decide

theorem list_any_ext {α : Type} (l : List α) (f g : α → Bool)
    (h : ∀ x, f x = g x) : l.any f = l.any g := by
  induction l with
  | nil => rfl
  | cons a t ih => simp only [List.any_cons, h a, ih]

/-- C7: the keyword-based same-topic fallback judgment is symmetric. -/
theorem is_similar_keyword_based_symm (a b : NewsArticle) :
    _is_similar_keyword_based a b = _is_similar_keyword_based b a := by
  simp only [_is_similar_keyword_based]
  congr 1
  · exact bool_rearrange1 _ _ _ _
  · exact list_any_ext companies _ _ (fun c => bool_rearrange2 _ _ _ _)

example :
    _is_similar_keyword_based
      { title := "Microsoft Patch Tuesday August 2025", url := "a", source := "x",
        category := "c", published := 0 }
      { title := "Microsoft fixes 107 vulnerabilities in August update", url := "b",
        source := "y", category := "c", published := 0 } = true := by decide

example :
    _is_similar_keyword_based
      { title := "Chrome 116 released", url := "a", source := "x",
        category := "c", published := 0 }
      { title := "Firefox 117 released", url := "b", source := "y",
        category := "c", published := 0 } = false := by decide

theorem removeSimilarAux_idem (l : List NewsArticle) :
    ∀ seen, removeSimilarAux seen (removeSimilarAux seen l) = removeSimilarAux seen l := by
  induction l with
  | nil => intro seen; rfl
  | cons a rest ih =>
    intro seen
    cases hd : seen.any (fun t => decide (_similarity a.title t > 0.8)) with
    | true =>
      simp only [removeSimilarAux, hd, if_true]
      exact ih seen
    | false =>
      simp only [removeSimilarAux, hd, Bool.false_eq_true, if_false]
      rw [ih (seen ++ [a.title])]

/-- C6: the fuzzy-title deduplicator is idempotent — applying
`_remove_similar_articles` to its own output returns it unchanged. -/
theorem remove_similar_articles_idem (articles : List NewsArticle) :
    _remove_similar_articles (_remove_similar_articles articles) =
      _remove_similar_articles articles :=
  removeSimilarAux_idem articles []

theorem keepTop_count (tc : Catalog) (cs : ConfigSettings) :
    ∀ (l : List NewsArticle) (counts : String → Nat) (c : String),
      counts c ≤ capOf tc cs c →
      (keepTopPerCategory tc cs counts l).countP (fun b => decide (b.category = c))
          + counts c ≤ capOf tc cs c := by
  intro l
  induction l with
  | nil =>
    intro counts c h
    simpa [keepTopPerCategory] using h
  | cons x rest ih =>
    intro counts c h
    simp only [keepTopPerCategory]
    cases h1 : (lookupCat x.category tc).isSome with
    | false =>
      simp only [Bool.false_eq_true, if_false]
      exact ih counts c h
    | true =>
      simp only [if_true]
      by_cases h2 : counts x.category < capOf tc cs x.category
      · simp only [if_pos h2, List.countP_cons]
        by_cases hc : x.category = c
        · subst hc
          have hih := ih (fun z => if z = x.category then counts z + 1 else counts z)
            x.category (by simp; omega)
          simp at hih ⊢
          omega
        · have hih := ih (fun z => if z = x.category then counts z + 1 else counts z)
            c (by simp only [if_neg (Ne.symm hc)]; exact h)
          simp only [if_neg (Ne.symm hc)] at hih
          simp [decide_eq_false hc]
          omega
      · simp only [if_neg h2]
        exact ih counts c h

theorem keepTop_sublist (tc : Catalog) (cs : ConfigSettings) :
    ∀ (l : List NewsArticle) (counts : String → Nat),
      List.Sublist (keepTopPerCategory tc cs counts l) l := by
  intro l
  induction l with
  | nil => intro counts; exact List.Sublist.refl _
  | cons x rest ih =>
    intro counts
    simp only [keepTopPerCategory]
    cases h1 : (lookupCat x.category tc).isSome with
    | false =>
      simp only [Bool.false_eq_true, if_false]
      exact (ih counts).cons x
    | true =>
      simp only [if_true]
      by_cases h2 : counts x.category < capOf tc cs x.category
      · simp only [if_pos h2]
        exact (ih _).cons₂ x
      · simp only [if_neg h2]
        exact (ih counts).cons x

theorem keepTop_mem_isSome (tc : Catalog) (cs : ConfigSettings) :
    ∀ (l : List NewsArticle) (counts : String → Nat) (a : NewsArticle),
      a ∈ keepTopPerCategory tc cs counts l →
      (lookupCat a.category tc).isSome := by
  intro l
  induction l with
  | nil => intro counts a ha; exact absurd ha (List.not_mem_nil a)
  | cons x rest ih =>
    intro counts a ha
    simp only [keepTopPerCategory] at ha
    cases h1 : (lookupCat x.category tc).isSome with
    | false =>
      rw [h1] at ha
      simp only [Bool.false_eq_true, if_false] at ha
      exact ih counts a ha
    | true =>
      rw [h1] at ha
      simp only [if_true] at ha
      by_cases h2 : counts x.category < capOf tc cs x.category
      · rw [if_pos h2] at ha
        rcases List.mem_cons.mp ha with rfl | ha2
        · exact h1
        · exact ih _ a ha2
      · rw [if_neg h2] at ha
        exact ih counts a ha

theorem keepTop_dropped (tc : Catalog) (cs : ConfigSettings) :
    ∀ (l : List NewsArticle) (counts : String → Nat) (a : NewsArticle),
      l.Pairwise (fun x y => y.score ≤ x.score) →
      a ∈ l →
      a ∉ keepTopPerCategory tc cs counts l →
      (lookupCat a.category tc).isSome →
      counts a.category ≤ capOf tc cs a.category →
      (keepTopPerCategory tc cs counts l).countP
          (fun b => decide (b.category = a.category)) + counts a.category
        = capOf tc cs a.category ∧
      ∀ b ∈ keepTopPerCategory tc cs counts l,
        b.category = a.category → a.score ≤ b.score := by
  intro l
  induction l with
  | nil =>
    intro counts a _ ha
    exact absurd ha (List.not_mem_nil a)
  | cons x rest ih =>
    intro counts a hpw ha hnot hsome hle
    obtain ⟨hxr, hrest⟩ := List.pairwise_cons.mp hpw
    cases h1 : (lookupCat x.category tc).isSome with
    | false =>
      have hout : keepTopPerCategory tc cs counts (x :: rest) =
          keepTopPerCategory tc cs counts rest := by
        simp only [keepTopPerCategory, h1, Bool.false_eq_true, if_false]
      rw [hout] at hnot ⊢
      rcases List.mem_cons.mp ha with rfl | ha2
      · rw [h1] at hsome
        exact absurd hsome (by simp)
      · exact ih counts a hrest ha2 hnot hsome hle
    | true =>
      by_cases h2 : counts x.category < capOf tc cs x.category
      · -- x kept
        have hout : keepTopPerCategory tc cs counts (x :: rest) =
            x :: keepTopPerCategory tc cs
              (fun c => if c = x.category then counts c + 1 else counts c) rest := by
          simp only [keepTopPerCategory, h1, if_true, if_pos h2]
        rw [hout] at hnot ⊢
        have hax : a ≠ x := fun he => hnot (he ▸ List.mem_cons_self x _)
        have ha2 : a ∈ rest := by
          rcases List.mem_cons.mp ha with he | h
          · exact absurd he hax
          · exact h
        have hnot2 : a ∉ keepTopPerCategory tc cs
            (fun c => if c = x.category then counts c + 1 else counts c) rest :=
          fun hm => hnot (List.mem_cons_of_mem x hm)
        have hle2 : (fun c => if c = x.category then counts c + 1 else counts c)
            a.category ≤ capOf tc cs a.category := by
          by_cases hcx : a.category = x.category
          · simp only [if_pos hcx]
            rw [hcx]
            omega
          · simp only [if_neg hcx]
            exact hle
        obtain ⟨hcount, hscore⟩ := ih _ a hrest ha2 hnot2 hsome hle2
        constructor
        · simp only [List.countP_cons]
          by_cases hcx : x.category = a.category
          · simp only [if_pos rfl, decide_eq_true hcx]
            simp only [if_pos hcx.symm] at hcount
            simp only [hcx.symm] at hcount ⊢
            simp
            omega
          · simp only [decide_eq_false hcx]
            simp only [if_neg (Ne.symm hcx)] at hcount
            simp
            omega
        · intro b hb hbc
          rcases List.mem_cons.mp hb with rfl | hb2
          · exact hxr a ha2
          · exact hscore b hb2 hbc
      · -- x dropped because its cap is reached
        have hout : keepTopPerCategory tc cs counts (x :: rest) =
            keepTopPerCategory tc cs counts rest := by
          simp only [keepTopPerCategory, h1, if_true, if_neg h2]
        rw [hout] at hnot ⊢
        rcases List.mem_cons.mp ha with rfl | ha2
        · have hcap : counts a.category = capOf tc cs a.category :=
            le_antisymm hle (not_lt.mp h2)
          have hcnt := keepTop_count tc cs rest counts a.category (le_of_eq hcap)
          have hzero : (keepTopPerCategory tc cs counts rest).countP
              (fun b => decide (b.category = a.category)) = 0 := by omega
          refine ⟨by omega, ?_⟩
          intro b hb hbc
          exfalso
          have := List.countP_eq_zero.mp hzero b hb
          simp [hbc] at this
        · exact ih counts a hrest ha2 hnot hsome hle

/-- C2: the Selector's output respects every per-category cap (with the
global default cap for categories lacking an explicit one), is in
score-descending order, and whenever an input article of a configured
category is dropped, that category's cap is exactly filled by output
articles scoring at least as high. -/
theorem select_top_articles_spec (tc : Catalog) (cs : ConfigSettings)
    (articles : List NewsArticle) :
    (∀ c : String,
      (select_top_articles tc cs articles).countP (fun b => decide (b.category = c))
        ≤ capOf tc cs c) ∧
    (select_top_articles tc cs articles).Pairwise (fun x y => y.score ≤ x.score) ∧
    (∀ a : NewsArticle, a ∈ articles →
      a ∉ select_top_articles tc cs articles →
      (lookupCat a.category tc).isSome →
      (select_top_articles tc cs articles).countP
          (fun b => decide (b.category = a.category)) = capOf tc cs a.category ∧
      ∀ b ∈ select_top_articles tc cs articles,
        b.category = a.category → a.score ≤ b.score) := by
  have hsorted : (sortByScoreDesc articles).Pairwise (fun x y => y.score ≤ x.score) :=
    List.sorted_insertionSort _ articles
  refine ⟨?_, ?_, ?_⟩
  · intro c
    have h := keepTop_count tc cs (sortByScoreDesc articles) (fun _ => 0) c (Nat.zero_le _)
    simp only [select_top_articles]
    omega
  · simp only [select_top_articles]
    exact List.Pairwise.sublist
      (keepTop_sublist tc cs (sortByScoreDesc articles) (fun _ => 0)) hsorted
  · intro a ha hnot hsome
    have hmem : a ∈ sortByScoreDesc articles := by
      simp only [sortByScoreDesc, List.mem_insertionSort]
      exact ha
    have h := keepTop_dropped tc cs (sortByScoreDesc articles) (fun _ => 0) a
      hsorted hmem hnot hsome (Nat.zero_le _)
    simpa only [select_top_articles, Nat.add_zero] using h

/-- C8: an article whose category is not a key of the configured catalog is
never in the output of `_filter_and_rank`, regardless of its score. -/
theorem filter_and_rank_excludes_unknown_categories (tc : Catalog)
    (cs : ConfigSettings) (articles : List NewsArticle) (a : NewsArticle)
    (h : lookupCat a.category tc = none) :
    a ∉ _filter_and_rank tc cs articles := by
  intro hmem
  have hs := keepTop_mem_isSome tc cs
    (sortByScoreDesc (_remove_similar_articles articles)) (fun _ => 0) a hmem
  rw [h] at hs
  simp at hs

theorem select_top_articles_spec_witness :
    (select_top_articles selCatalog selCfg [selA1, selA2]).countP
        (fun b => decide (b.category = selA2.category))
      = capOf selCatalog selCfg selA2.category ∧
    ∀ b ∈ select_top_articles selCatalog selCfg [selA1, selA2],
      b.category = selA2.category → selA2.score ≤ b.score :=
  (select_top_articles_spec selCatalog selCfg [selA1, selA2]).2.2 selA2
    (by decide) (by decide) (by decide)

theorem filter_and_rank_excludes_unknown_categories_witness :
    c8Art ∉ _filter_and_rank selCatalog selCfg [c8Art] :=
  filter_and_rank_excludes_unknown_categories selCatalog selCfg [c8Art] c8Art
    (by decide)

theorem cluster_min_size_aux (share : NewsArticle → NewsArticle → Bool)
    (m : Nat) :
    ∀ (n : Nat) (articles : List NewsArticle), articles.length ≤ n →
      ∀ c ∈ _cluster_similar_articles share m articles, m ≤ c.length := by
  intro n
  induction n with
  | zero =>
    intro articles hlen c hc
    have hnil : articles = [] := List.length_eq_zero.mp (Nat.le_zero.mp hlen)
    subst hnil
    simp [_cluster_similar_articles] at hc
  | succ n ih =>
    intro articles hlen c hc
    cases articles with
    | nil => simp [_cluster_similar_articles] at hc
    | cons a rest =>
      rw [_cluster_similar_articles] at hc
      rcases List.mem_append.mp hc with h1 | h2
      · by_cases hsz : m ≤ (a :: rest.filter (fun b => share a b)).length
        · rw [if_pos hsz] at h1
          rcases List.mem_singleton.mp h1 with rfl
          exact hsz
        · rw [if_neg hsz] at h1
          exact absurd h1 (List.not_mem_nil c)
      · refine ih (rest.filter (fun b => !share a b)) ?_ c h2
        have := List.length_filter_le (fun b => !share a b) rest
        simp only [List.length_cons] at hlen
        omega

/-- C10: every cluster returned by the Discovery Engine's clustering step
contains at least `min_cluster_size` articles, for any topic-sharing
predicate and in particular for `_articles_share_topic`. -/
theorem cluster_similar_articles_min_size
    (share : NewsArticle → NewsArticle → Bool) (min_cluster_size : Nat)
    (articles : List NewsArticle) (c : List NewsArticle)
    (hc : c ∈ _cluster_similar_articles share min_cluster_size articles) :
    min_cluster_size ≤ c.length :=
  cluster_min_size_aux share min_cluster_size articles.length articles
    (le_refl _) c hc

theorem cluster_similar_articles_min_size_witness :
    (1 : Nat) ≤ ([selA1] : List NewsArticle).length :=
  cluster_similar_articles_min_size (fun _ _ => true) 1 [selA1] [selA1]
    (by simp [_cluster_similar_articles])

theorem round2_unit (q : ℚ) (h0 : 0 ≤ q) (h1 : q ≤ 1) :
    0 ≤ round2 q ∧ round2 q ≤ 1 := by
  unfold round2
  constructor
  · apply div_nonneg _ (by norm_num)
    have h : (0 : ℤ) ≤ round (q * 100) := by
      rw [round_eq]
      apply Int.floor_nonneg.mpr
      nlinarith
    exact_mod_cast h
  · rw [div_le_one (by norm_num)]
    have h : round (q * 100) ≤ (100 : ℤ) := by
      rw [round_eq]
      have hle : ⌊q * 100 + 1 / 2⌋ ≤ ⌊(100 : ℚ) + 1 / 2⌋ :=
        Int.floor_le_floor (by nlinarith)
      have h100 : ⌊(100 : ℚ) + 1 / 2⌋ = 100 := by
        rw [Int.floor_eq_iff]
        norm_num
      omega
    exact_mod_cast h

/-- C9: the suggestion confidence always lies in `[0, 1]`, is an integer
multiple of `1/100` (two decimals), and — whenever the cluster has top
terms — equals the specification's formula
`0.5·min(1, cluster_size/10) + 0.5·min(1, avg_top_term_frequency/10)`
rounded to 2 decimals. -/
theorem calculate_confidence_spec (cluster : List NewsArticle)
    (top_terms : List (String × Nat)) :
    (0 ≤ _calculate_confidence cluster top_terms ∧
      _calculate_confidence cluster top_terms ≤ 1) ∧
    (∃ n : ℤ, _calculate_confidence cluster top_terms = (n : ℚ) / 100) ∧
    (top_terms ≠ [] →
      _calculate_confidence cluster top_terms = specConfidence cluster.length top_terms) := by
  have hsize0 : (0 : ℚ) ≤ min 1 ((cluster.length : ℚ) / 10) :=
    le_min (by norm_num) (by positivity)
  have hsize1 : min 1 ((cluster.length : ℚ) / 10) ≤ 1 := min_le_left _ _
  have hfreq0 : (0 : ℚ) ≤
      (if top_terms.isEmpty then 0
       else min 1 (((top_terms.map (fun p => (p.2 : ℚ))).sum / (top_terms.length : ℚ)) / 10)) := by
    split
    · exact le_refl 0
    · refine le_min (by norm_num) ?_
      apply div_nonneg _ (by norm_num)
      apply div_nonneg _ (by positivity)
      apply List.sum_nonneg
      intro x hx
      obtain ⟨p, _, rfl⟩ := List.mem_map.mp hx
      positivity
  have hfreq1 :
      (if top_terms.isEmpty then 0
       else min 1 (((top_terms.map (fun p => (p.2 : ℚ))).sum / (top_terms.length : ℚ)) / 10)) ≤ 1 := by
    split
    · norm_num
    · exact min_le_left _ _
  refine ⟨?_, ⟨round (((min 1 ((cluster.length : ℚ) / 10)) * 0.5 +
      (if top_terms.isEmpty then 0
       else min 1 (((top_terms.map (fun p => (p.2 : ℚ))).sum / (top_terms.length : ℚ)) / 10)) * 0.5) * 100),
    rfl⟩, ?_⟩
  · exact round2_unit _ (by nlinarith) (by nlinarith)
  · intro hne
    have hemp : top_terms.isEmpty = false := by
      simpa [List.isEmpty_iff] using hne
    simp only [_calculate_confidence, specConfidence, hemp, Bool.false_eq_true, if_false]
    congr 1
    ring

theorem calculate_confidence_spec_witness :
    _calculate_confidence [selA1] [("abcd", 3)] = specConfidence 1 [("abcd", 3)] :=
  (calculate_confidence_spec [selA1] [("abcd", 3)]).2.2 (by decide)

theorem dictLookup_dictInsert {α : Type} (k name : String) (v : α) :
    ∀ d : List (String × α),
      dictLookup name (dictInsert k v d) =
        if k = name then some v else dictLookup name d := by
  intro d
  induction d with
  | nil => simp [dictInsert, dictLookup]
  | cons p rest ih =>
    obtain ⟨x, w⟩ := p
    by_cases hx : x = k
    · simp only [dictInsert, if_pos hx, dictLookup]
      by_cases hkn : k = name
      · simp [hkn]
      · have hxn : ¬(x = name) := by rw [hx]; exact hkn
        simp [hkn, hxn]
    · simp only [dictInsert, if_neg hx, dictLookup, ih]
      by_cases hxn : x = name
      · have hkn : ¬(k = name) := fun he => hx (hxn.trans he.symm)
        simp [hxn, hkn]
      · simp [hxn]

theorem dictLookup_append_left {α : Type} (k : String) (v : α) :
    ∀ (d e : List (String × α)), dictLookup k d = some v →
      dictLookup k (d ++ e) = some v := by
  intro d
  induction d with
  | nil => intro e h; exact absurd h (by simp [dictLookup])
  | cons p rest ih =>
    intro e h
    obtain ⟨x, w⟩ := p
    simp only [dictLookup, List.cons_append] at h ⊢
    by_cases hx : x = k
    · rwa [if_pos hx] at h ⊢
    · rw [if_neg hx] at h ⊢
      exact ih e h

/-- C1 (amended): within a single run, the suggestion stored for a name is
the one of the most recently processed cluster generating that name — a
later duplicate (even a lower-confidence one) overwrites the earlier
record; across runs, a suggestion name already present in the persisted
history is never overwritten by `save_history`. -/
theorem suggestion_last_write_wins_and_history_persists :
    (∀ (clusters : List (List NewsArticle)) (c : List NewsArticle) (name : String),
      dictLookup name (_generate_category_suggestions (clusters ++ [c])) =
        if (clusterSuggestion c).1 = name then some (clusterSuggestion c).2
        else dictLookup name (_generate_category_suggestions clusters)) ∧
    (∀ (patterns new_suggestions : List (String × Suggestion)) (k : String)
        (v : Suggestion),
      dictLookup k patterns = some v →
      dictLookup k (save_history_patterns patterns new_suggestions) = some v) := by
  constructor
  · intro clusters c name
    simp only [_generate_category_suggestions, List.foldl_append, List.foldl_cons,
      List.foldl_nil]
    exact dictLookup_dictInsert _ name _ _
  · intro patterns new_suggestions
    induction new_suggestions generalizing patterns with
    | nil => intro k v h; exact h
    | cons p rest ih =>
      intro k v h
      simp only [save_history_patterns, List.foldl_cons] at ih ⊢
      by_cases hp : (dictLookup p.1 patterns).isSome
      · rw [if_pos hp]
        exact ih patterns k v h
      · rw [if_neg hp]
        exact ih (patterns ++ [p]) k v (dictLookup_append_left k v patterns [p] h)

theorem suggestion_last_write_wins_and_history_persists_witness :
    dictLookup "quantum_computing"
      (save_history_patterns [("quantum_computing", sugOld)]
        [("quantum_computing", sugNew)]) = some sugOld :=
  suggestion_last_write_wins_and_history_persists.2
    [("quantum_computing", sugOld)] [("quantum_computing", sugNew)]
    "quantum_computing" sugOld rfl

/-- C1 counterexample: the clusters `clA` (4 articles) and `clB`
(3 articles) both generate the category name `emerging_tech`; after the
run, the suggestion stored under that name is the record of the *second*
cluster (`article_count = 3`), so the record written first did not win —
the later duplicate overwrote it. -/
theorem later_cluster_overwrites_suggestion :
    dictLookup "emerging_tech" (_generate_category_suggestions [clA, clB]) =
      some (clusterSuggestion clB).2 ∧
    (clusterSuggestion clB).2.article_count = 3 ∧
    (clusterSuggestion clA).2.article_count = 4 :=
  ⟨rfl, rfl, rfl⟩
